import Mathlib

/-!
Verification of the TubeWEAVE path-to-schedule pipeline.

This file gives a shallow embedding, over `ℚ`, of the numeric core of the
single-file React component (`src/unnamed/part_000`, duplicated in
`src/app/layout.jsx`): the segment model (`segmentsOverlap`,
`findNextAvailablePosition`, the pointer-move mutations), the segment→step
compiler (`densityLevelToEHDParams`, `segmentsToEHDSteps`), the resampler
(`resampleUniform`), the raster sampler (`grayscaleAt`), the waveform
synthesizers (the PWM and DITHER branches of `recompute`), and the import
validation (`validateStep`, the normalize-and-filter core of
`extractStepsFromJson`).

JavaScript numbers are modelled as rationals (`ℚ`); `Math.round`,
`Math.floor`, `Math.max`/`Math.min` and the `%` remainder are modelled
explicitly (`jround`, `Int.floor`, `max`/`min`, `jsRemainder`).
-/

namespace TubeWeave

/-- Embedding of the source utility `clamp = (v, lo, hi) => Math.max(lo, Math.min(hi, v))`. -/
def clamp (v lo hi : ℚ) : ℚ := max lo (min hi v)

/-- Embedding of the source utility `lerp = (a, b, t) => a + (b - a) * t`. -/
def lerp (a b t : ℚ) : ℚ := a + (b - a) * t

/-- Model of JavaScript `Math.round`: round half toward positive infinity,
`Math.round(x) = Math.floor(x + 0.5)`. -/
def jround (q : ℚ) : ℚ := (⌊q + 1/2⌋ : ℤ)

/-- Segment record `{ startCm, endCm, densityLevel }` of the segment editor. -/
structure Segment where
  startCm : ℚ
  endCm : ℚ
  densityLevel : ℚ
deriving DecidableEq, Repr

/-- EHD parameter record `{ ch0, ch1, ch2, duration_base, resistance_factor }`. -/
structure EHDParams where
  ch0 : ℚ
  ch1 : ℚ
  ch2 : ℚ
  duration_base : ℚ
  resistance_factor : ℚ
deriving DecidableEq, Repr

/-- Source constant `DENSE_PARAMS = { ch0: 80, ch1: 70, ch2: 0, duration_base: 1500, resistance_factor: 0.135 }`. -/
def DENSE_PARAMS : EHDParams := ⟨80, 70, 0, 1500, 135/1000⟩

/-- Source constant `SPARSE_PARAMS = { ch0: 73, ch1: 70, ch2: 0, duration_base: 2000, resistance_factor: 0.05 }`. -/
def SPARSE_PARAMS : EHDParams := ⟨73, 70, 0, 2000, 5/100⟩

/-- Calibration object consumed by `densityLevelToEHDParams` (fields
`denseCh0 … sparseResistance, ch1`; its `feedSpeed` field is not read there). -/
structure Calibration where
  denseCh0 : ℚ
  denseDuration : ℚ
  denseResistance : ℚ
  sparseCh0 : ℚ
  sparseDuration : ℚ
  sparseResistance : ℚ
  ch1 : ℚ
deriving DecidableEq, Repr

/-- Embedding of `densityLevelToEHDParams(densityLevel, calibration)`:
clamp the level into `[1,10]`, normalize to `ratio = (level-1)/9`, and
linearly interpolate between the sparse and dense presets, rounding `ch0`
and `duration_base`; `ch1`/`ch2` are the shared (dense) values.  A JS
`null` calibration is `none`. -/
def densityLevelToEHDParams (densityLevel : ℚ) (calibration : Option Calibration) : EHDParams :=
  let level := clamp densityLevel 1 10
  let ratio := (level - 1) / 9
  let denseParams : EHDParams := match calibration with
    | some c => ⟨c.denseCh0, c.ch1, 0, c.denseDuration, c.denseResistance⟩
    | none => DENSE_PARAMS
  let sparseParams : EHDParams := match calibration with
    | some c => ⟨c.sparseCh0, c.ch1, 0, c.sparseDuration, c.sparseResistance⟩
    | none => SPARSE_PARAMS
  { ch0 := jround (lerp sparseParams.ch0 denseParams.ch0 ratio)
    ch1 := denseParams.ch1
    ch2 := denseParams.ch2
    duration_base := jround (lerp sparseParams.duration_base denseParams.duration_base ratio)
    resistance_factor := lerp sparseParams.resistance_factor denseParams.resistance_factor ratio }

/-- Hardware actuation step `{ ch0, ch1, duration }`. -/
structure EHDStep where
  ch0 : ℚ
  ch1 : ℚ
  duration : ℚ
deriving DecidableEq, Repr

/-- Stable insertion of a segment into a list ordered by `startCm`.  Together
with `sortByStart` this models `Array.prototype.sort` with the comparator
`(a, b) => a.startCm - b.startCm`, which is a stable sort by `startCm`. -/
def insertByStart (a : Segment) : List Segment → List Segment
  | [] => [a]
  | b :: l => if b.startCm < a.startCm then b :: insertByStart a l else a :: b :: l

/-- Stable sort of segments by `startCm` (model of `[...segments].sort((a, b) => a.startCm - b.startCm)`). -/
def sortByStart (l : List Segment) : List Segment :=
  l.foldr insertByStart []

/-- One iteration body plus loop of `segmentsToEHDSteps`: walk the sorted
segments left to right from the cursor, emitting a rest (gap) step when the
cursor is behind the next segment and then the segment step itself; the
loop runs while `steps.length < maxSteps` (checked before each segment,
exactly as the `for` condition in the source). Returns the accumulated
steps and the final cursor. -/
def segLoop (calibration : Option Calibration) (feedSpeedMmPerSec : ℚ) (maxSteps : ℕ) :
    List Segment → ℚ → List EHDStep → List EHDStep × ℚ
  | [], currentPos, steps => (steps, currentPos)
  | seg :: rest, currentPos, steps =>
    if steps.length < maxSteps then
      let steps1 := if currentPos < seg.startCm then
          steps ++ [⟨0, 70, max 1000 (jround ((seg.startCm - currentPos) * 10 / feedSpeedMmPerSec * 1000))⟩]
        else steps
      let ehdParams := densityLevelToEHDParams seg.densityLevel calibration
      let steps2 := steps1 ++
        [⟨ehdParams.ch0, ehdParams.ch1,
          max 1000 (jround ((seg.endCm - seg.startCm) * 10 / feedSpeedMmPerSec * 1000))⟩]
      segLoop calibration feedSpeedMmPerSec maxSteps rest seg.endCm steps2
    else (steps, currentPos)

/-- Embedding of `segmentsToEHDSteps(segments, feedSpeedMmPerSec, maxSteps, calibration, tubeLengthCm)`.
A JS `null`/`undefined` segment array behaves exactly like the empty array
(the guard `!segments || segments.length === 0`), so it is modelled by `[]`. -/
def segmentsToEHDSteps (segments : List Segment) (feedSpeedMmPerSec : ℚ) (maxSteps : ℕ)
    (calibration : Option Calibration) (tubeLengthCm : ℚ) : List EHDStep :=
  match segments with
  | [] => [{ ch0 := 0, ch1 := 70, duration := 1500 }]
  | _ :: _ =>
    let sortedSegments := sortByStart segments
    let r := segLoop calibration feedSpeedMmPerSec maxSteps sortedSegments 0 []
    if r.2 < tubeLengthCm then
      r.1 ++ [⟨0, 70, max 1000 (jround ((tubeLengthCm - r.2) * 10 / feedSpeedMmPerSec * 1000))⟩]
    else r.1

/-- Embedding of `segmentsOverlap(seg1, seg2) = seg1.startCm < seg2.endCm && seg2.startCm < seg1.endCm`
(half-open interval semantics: touching endpoints do not overlap). -/
def segmentsOverlap (seg1 seg2 : Segment) : Bool :=
  decide (seg1.startCm < seg2.endCm) && decide (seg2.startCm < seg1.endCm)

/-- Gap scan of `findNextAvailablePosition`: walk the sorted segments with a
cursor, returning the first gap of at least `preferredLength` before a
segment, else the trailing space after the last segment if it fits, else
`null` (`none`). -/
def findGapScan (preferredLength tubeLength : ℚ) : List Segment → ℚ → Option (ℚ × ℚ)
  | [], currentPos =>
    if currentPos + preferredLength ≤ tubeLength then
      some (currentPos, currentPos + preferredLength)
    else none
  | seg :: rest, currentPos =>
    if currentPos + preferredLength ≤ seg.startCm then
      some (currentPos, currentPos + preferredLength)
    else findGapScan preferredLength tubeLength rest seg.endCm

/-- Embedding of `findNextAvailablePosition(segments, preferredStart, preferredLength, tubeLength)`:
try the preferred slot first (checking overlap against every segment, with
the candidate `{startCm, endCm}` record carrying no density level, modelled
here with density 0, which `segmentsOverlap` never reads), then scan for
the first gap. -/
def findNextAvailablePosition (segments : List Segment)
    (preferredStart preferredLength tubeLength : ℚ) : Option (ℚ × ℚ) :=
  let sortedSegments := sortByStart segments
  let preferredEnd := preferredStart + preferredLength
  if preferredEnd ≤ tubeLength ∧
      ¬sortedSegments.any (fun seg => segmentsOverlap seg ⟨preferredStart, preferredEnd, 0⟩) = true then
    some (preferredStart, preferredEnd)
  else
    findGapScan preferredLength tubeLength sortedSegments 0

/-- Add-segment path of `onManualPointerDown`: when `findNextAvailablePosition`
returns a slot, a new segment with density level 5 is appended; when it
returns `null`, the add is a no-op and the prior list is retained. -/
def addSegment (segments : List Segment) (preferredStart preferredLength tubeLength : ℚ) :
    List Segment :=
  match findNextAvailablePosition segments preferredStart preferredLength tubeLength with
  | some (s, e) => segments ++ [⟨s, e, 5⟩]
  | none => segments

/-- Model of `Array.prototype.some` with an index-aware callback, carrying
the running element index. -/
def jsSomeIdx (p : ℕ → Segment → Bool) : ℕ → List Segment → Bool
  | _, [] => false
  | i, a :: l => p i a || jsSomeIdx p (i + 1) l

/-- Model of `Array.prototype.map` with an index-aware callback, carrying
the running element index. -/
def jsMapIdx (f : ℕ → Segment → Segment) : ℕ → List Segment → List Segment
  | _, [] => []
  | i, a :: l => f i a :: jsMapIdx f (i + 1) l

/-- Which part of a segment the pointer is dragging in `onManualPointerMove`:
the start resize handle, the end resize handle, or the whole segment
(`manualDraggingHandle` of `'start'`, `'end'`, `null`). -/
inductive DragHandle where
  | hStart : DragHandle
  | hEnd : DragHandle
  | whole : DragHandle
deriving DecidableEq, Repr

/-- Candidate segment built by `onManualPointerMove` for the dragged index,
before the overlap check: start-handle drag moves `startCm` (kept at least
`minGap` before `endCm`), end-handle drag moves `endCm` (kept at least
`minGap` after `startCm` and at most `tubeLength`), whole-segment drag
translates the segment (kept inside the tube on the right). -/
def dragCandidate (seg : Segment) (handle : DragHandle) (newPosition minGap tubeLength : ℚ) :
    Segment :=
  match handle with
  | .hStart => { seg with startCm := min newPosition (seg.endCm - minGap) }
  | .hEnd => { seg with endCm := min (max newPosition (seg.startCm + minGap)) tubeLength }
  | .whole =>
    let lengthCm := seg.endCm - seg.startCm
    let newStartCm := min newPosition (tubeLength - lengthCm)
    { seg with startCm := newStartCm, endCm := newStartCm + lengthCm }

/-- Embedding of the `setManualSegments(arr => arr.map(...))` body of
`onManualPointerMove`: every index other than the dragged one is returned
unchanged; the dragged index is replaced by the drag candidate only when
the candidate overlaps no other segment, and is otherwise kept unchanged. -/
def onManualPointerMove (segments : List Segment) (draggingIdx : ℕ) (handle : DragHandle)
    (newPosition minGap tubeLength : ℚ) : List Segment :=
  jsMapIdx (fun i seg =>
    if i = draggingIdx then
      let newSegment := dragCandidate seg handle newPosition minGap tubeLength
      if jsSomeIdx (fun otherIdx otherSeg =>
          decide (otherIdx ≠ i) && segmentsOverlap newSegment otherSeg) 0 segments then
        seg
      else newSegment
    else seg) 0 segments

/-- Pairwise non-overlap invariant of a `SegmentSet` (half-open semantics). -/
def NoOverlap (segments : List Segment) : Prop :=
  segments.Pairwise (fun a b => segmentsOverlap a b = false)

/-- Well-formedness of the segment data model: `startCm < endCm` for every
segment (part of the `Segment` data-model invariant in the spec). -/
def WellFormed (segments : List Segment) : Prop :=
  ∀ seg ∈ segments, seg.startCm < seg.endCm

end TubeWeave

namespace TubeWeave

/-- Length in mm implied by a step, per the spec's tiling property:
`duration / 1000 * feedSpeed`. -/
def impliedLenMm (feedSpeed : ℚ) (st : EHDStep) : ℚ := st.duration / 1000 * feedSpeed

/-- Reference definition (from the spec's tiling property, for the
refinement comparison): the lengths in cm of the gap and segment regions
visited by the compiler walk, in order, starting at cursor `pos`. -/
def regionLens : List Segment → ℚ → List ℚ
  | [], _ => []
  | seg :: rest, pos =>
    (if pos < seg.startCm then [seg.startCm - pos] else []) ++
      (seg.endCm - seg.startCm) :: regionLens rest seg.endCm

/-- Cursor position after walking all segments (the last segment's end, or
the start cursor for an empty list). -/
def finalPos : List Segment → ℚ → ℚ
  | [], pos => pos
  | seg :: rest, _ => finalPos rest seg.endCm

/-- Reference definition (from the spec's tiling property): all region
lengths of the walk over `[0, tubeLength]`, including the trailing gap. -/
def regionLengths (segments : List Segment) (tubeLength : ℚ) : List ℚ :=
  regionLens segments 0 ++
    (if finalPos segments 0 < tubeLength then [tubeLength - finalPos segments 0] else [])

/-- Accumulator-free form of the compiler loop body (same gap/segment steps
as `segLoop`, without the `maxSteps` cap). -/
def stepsOf (calibration : Option Calibration) (feedSpeed : ℚ) : List Segment → ℚ → List EHDStep
  | [], _ => []
  | seg :: rest, pos =>
    (if pos < seg.startCm then
        [⟨0, 70, max 1000 (jround ((seg.startCm - pos) * 10 / feedSpeed * 1000))⟩]
      else []) ++
      ⟨(densityLevelToEHDParams seg.densityLevel calibration).ch0,
        (densityLevelToEHDParams seg.densityLevel calibration).ch1,
        max 1000 (jround ((seg.endCm - seg.startCm) * 10 / feedSpeed * 1000))⟩ ::
        stepsOf calibration feedSpeed rest seg.endCm

/-- Segments are ordered and disjoint when walked from cursor `c`: each
segment starts at or after the cursor, which then advances to its end. -/
def chainedFrom : ℚ → List Segment → Prop
  | _, [] => True
  | c, seg :: rest => c ≤ seg.startCm ∧ chainedFrom seg.endCm rest

/-- A region length whose implied duration is exact: `len*10/feed*1000` is
an integer (so `Math.round` keeps it) of at least 1000 (so the 1000 ms
floor keeps it). -/
def ExactDur (feedSpeed len : ℚ) : Prop :=
  jround (len * 10 / feedSpeed * 1000) = len * 10 / feedSpeed * 1000 ∧
    1000 ≤ len * 10 / feedSpeed * 1000

/-- Distance between two points of a horizontal (straight, 1-D) polyline.
The source's `dist = Math.hypot(a.x - b.x, a.y - b.y)` restricted to points
with equal `y` is `|a.x - b.x|`; the claims about `resampleUniform`
quantify over straight polylines, which are embedded here by their
arc-length coordinate, so `lerp` acts on that coordinate. -/
def dist1 (a b : ℚ) : ℚ := |a - b|

/-- Truncation toward zero, as JavaScript number-to-integer conversion. -/
def jtrunc (q : ℚ) : ℤ := if 0 ≤ q then ⌊q⌋ else ⌈q⌉

/-- JavaScript remainder `a % b` (sign of the dividend, truncated
division); total on `ℚ` (the source only applies it with `b > 0`). -/
def jsRemainder (a b : ℚ) : ℚ := a - b * jtrunc (a / b)

/-- Inner `while (t <= segLen)` loop of `resampleUniform`: starting at
travelled distance `t` within the current polyline segment from `a` to
`b`, emit `lerp(a, b, t/segLen)` and advance by `stepPx` while `t` does
not exceed the segment length. -/
def emitLoop (a b segLen stepPx t : ℚ) : List ℚ :=
  if h : 0 < stepPx ∧ t ≤ segLen then
    lerp a b (t / segLen) :: emitLoop a b segLen stepPx (t + stepPx)
  else []
termination_by (⌊(segLen - t) / stepPx⌋ + 1).toNat
decreasing_by
  obtain ⟨hs, ht⟩ := h
  have hnum : (segLen - (t + stepPx)) / stepPx = (segLen - t) / stepPx - 1 := by
    field_simp
    ring
  have hfl : ⌊(segLen - (t + stepPx)) / stepPx⌋ = ⌊(segLen - t) / stepPx⌋ - 1 := by
    rw [hnum]
    rw [show ((1 : ℚ)) = ((1 : ℤ) : ℚ) by norm_num, Int.floor_sub_int]
  have hnn : (0 : ℤ) ≤ ⌊(segLen - t) / stepPx⌋ :=
    Int.floor_nonneg.mpr (div_nonneg (by linarith) (le_of_lt hs))
  rw [hfl]
  omega

/-- Per-pair walk of `resampleUniform` over consecutive polyline points,
carrying the accumulated remainder `acc` across segment boundaries via
`acc = (segLen + acc) % stepPx`. -/
def resampleGo (stepPx : ℚ) : ℚ → List ℚ → ℚ → List ℚ
  | _, [], _ => []
  | a, b :: rest, acc =>
    emitLoop a b (dist1 a b) stepPx (stepPx - acc) ++
      resampleGo stepPx b rest (jsRemainder (dist1 a b + acc) stepPx)

/-- Embedding of `resampleUniform(pts, stepPx)` on straight (1-D embedded)
polylines: empty input returns empty; otherwise the first point is always
emitted, then points every `stepPx` of travelled arc length. -/
def resampleUniform (pts : List ℚ) (stepPx : ℚ) : List ℚ :=
  match pts with
  | [] => []
  | p0 :: rest => p0 :: resampleGo stepPx p0 rest 0

/-- Droplet record `{ s_px, s_mm, t_ms, width_mm, amplitude }` produced by
the continuous synthesizer in `recompute`. -/
structure Drop where
  s_px : ℚ
  s_mm : ℚ
  t_ms : ℚ
  width_mm : ℚ
  amplitude : ℚ
deriving DecidableEq, Repr

/-- Emission cadence of `recompute`:
`stepIdx = max(1, round(max(minSpacingPx, sampleStepPx) / sampleStepPx))`,
always at least 1. -/
def stepIdxOf (minSpacingPx sampleStepPx : ℚ) : ℕ :=
  max 1 (jtrunc (jround (max minSpacingPx sampleStepPx / sampleStepPx))).toNat

/-- PWM branch of `recompute`: for `i = 0, stepIdx, 2*stepIdx, …` below the
sample count, clamp the intensity, set the pulse width to
`widthMinPx + v * max(0, widthMaxPx - widthMinPx)` pixels, convert to mm,
and emit a droplet with amplitude 1.0 at `s_px = i * sampleStepPx`,
`s_mm = s_px * mmPerPixel`, `t_ms = s_mm / feedSpeed * 1000`.  The `for`
loop with positive increment `stepIdx` visits exactly the multiples of
`stepIdx` in range. -/
def pwmDrops (f : List ℚ) (stepIdx : ℕ)
    (widthMinPx widthMaxPx mmPerPixel sampleStepPx feedSpeed : ℚ) : List Drop :=
  let widthRangePx := max 0 (widthMaxPx - widthMinPx)
  ((List.range f.length).filter (fun i => i % stepIdx = 0)).map (fun i =>
    let v := clamp (f.getD i 0) 0 1
    let wpx := widthMinPx + v * widthRangePx
    let wmm := wpx * mmPerPixel
    let s_px := (i : ℚ) * sampleStepPx
    let s_mm := s_px * mmPerPixel
    let t_ms := s_mm / feedSpeed * 1000
    ⟨s_px, s_mm, t_ms, wmm, 1⟩)

/-- Droplet emitted by the DITHER branch at sample index `i`: fixed width
`w0mm`, amplitude 1.0, position and time derived from the index. -/
def ditherDrop (sampleStepPx mmPerPixel feedSpeed w0mm : ℚ) (i : ℕ) : Drop :=
  let s_px := (i : ℚ) * sampleStepPx
  let s_mm := s_px * mmPerPixel
  let t_ms := s_mm / feedSpeed * 1000
  ⟨s_px, s_mm, t_ms, w0mm, 1⟩

/-- In-place `fCopy[j] += x` of the error diffusion; `List.set` is the
identity out of range, exactly like the source's `if (i + k < fCopy.length)`
guard. -/
def bump (l : List ℚ) (j : ℕ) (x : ℚ) : List ℚ := l.set j (l.getD j 0 + x)

/-- DITHER branch loop of `recompute` over the sample indices: clamp the
(possibly error-adjusted) value, binarize at `threshold`, record the
quantized output in the synthesized signal `g`, diffuse the quantization
error to the next four samples with weights `7/16, 5/16, 3/16, 1/16`, and
emit a droplet when the index is a multiple of `stepIdx` and the output
is 1.  Returns `(g, drops)`. -/
def ditherGo (threshold : ℚ) (stepIdx : ℕ) (sampleStepPx mmPerPixel feedSpeed w0mm : ℚ) :
    List ℕ → List ℚ → List ℚ × List Drop
  | [], _ => ([], [])
  | i :: idxs, fCopy =>
    let v := clamp (fCopy.getD i 0) 0 1
    let out : ℚ := if threshold ≤ v then 1 else 0
    let err := v - out
    let fCopy2 := bump (bump (bump (bump fCopy (i + 1) (err * (7/16)))
      (i + 2) (err * (5/16))) (i + 3) (err * (3/16))) (i + 4) (err * (1/16))
    let rest := ditherGo threshold stepIdx sampleStepPx mmPerPixel feedSpeed w0mm idxs fCopy2
    (out :: rest.1,
      if i % stepIdx = 0 ∧ 0 < out then
        ditherDrop sampleStepPx mmPerPixel feedSpeed w0mm i :: rest.2
      else rest.2)

/-- DITHER branch of `recompute`: error diffusion over a copy of the whole
intensity sequence (`for (i = 0; i < fCopy.length; i++)`), with the fixed
droplet width `w0mm = 0.5 * (widthMinMm + widthMaxMm)`. -/
def ditherCompute (f : List ℚ) (threshold : ℚ) (stepIdx : ℕ)
    (sampleStepPx mmPerPixel feedSpeed widthMinMm widthMaxMm : ℚ) : List ℚ × List Drop :=
  let w0mm := (1/2) * (widthMinMm + widthMaxMm)
  ditherGo threshold stepIdx sampleStepPx mmPerPixel feedSpeed w0mm (List.range f.length) f

/-- Raster model of the canvas `ImageData`: RGBA bytes in row-major order,
4 entries per pixel (`data.length = 4 * width * height`). -/
structure ImageData where
  width : ℕ
  height : ℕ
  data : List ℚ
deriving DecidableEq, Repr

/-- Index computation of `grayscaleAt`:
`xi = floor(clamp(x, 0, width-1))`, `yi = floor(clamp(y, 0, height-1))`,
`idx = (yi * width + xi) * 4`.  Since both clamps have lower bound 0, the
index is always nonnegative. -/
def pixelIndex (imageData : ImageData) (x y : ℚ) : ℤ :=
  let xi := ⌊clamp x 0 ((imageData.width : ℚ) - 1)⌋
  let yi := ⌊clamp y 0 ((imageData.height : ℚ) - 1)⌋
  (yi * imageData.width + xi) * 4

/-- Embedding of `grayscaleAt(imageData, x, y)`: clamp and floor the
coordinates, read the R, G, B bytes at the pixel index, and return the
perceptual grayscale `(0.299 r + 0.587 g + 0.114 b) / 255`. -/
def grayscaleAt (imageData : ImageData) (x y : ℚ) : ℚ :=
  let idx := (pixelIndex imageData x y).toNat
  let r := imageData.data.getD idx 0
  let g := imageData.data.getD (idx + 1) 0
  let b := imageData.data.getD (idx + 2) 0
  (299/1000 * r + 587/1000 * g + 114/1000 * b) / 255

/-- JavaScript numeric field of an imported JSON step: absent
(`undefined`/`null`, handled by `??`), an ordinary number, or a value that
coerces to `NaN` (failing `Number.isFinite`).  JavaScript `±Infinity`
clamps to the interval bounds exactly like any out-of-range finite number,
so it behaves as a large finite value in this model. -/
inductive JsNum where
  | missing : JsNum
  | num : ℚ → JsNum
  | nan : JsNum
deriving DecidableEq, Repr

/-- Candidate step record from an imported JSON file (and also the shape
of a normalized step, whose fields may still be `NaN`). -/
structure RawStep where
  ch0 : JsNum
  ch1 : JsNum
  duration : JsNum
deriving DecidableEq, Repr

/-- JavaScript `v ?? d`. -/
def jsCoalesce (v : JsNum) (d : ℚ) : JsNum :=
  match v with
  | .missing => .num d
  | x => x

/-- Lift a numeric function over a JS number; `NaN` propagates (as through
`Math.round`, `Math.max`, `Math.min`). -/
def jsnMap (f : ℚ → ℚ) (v : JsNum) : JsNum :=
  match v with
  | .num q => .num (f q)
  | x => x

/-- Test `Number.isFinite(v) && lo <= v && v <= hi`. -/
def jsFiniteBetween (v : JsNum) (lo hi : ℚ) : Bool :=
  match v with
  | .num q => decide (lo ≤ q) && decide (q ≤ hi)
  | _ => false

/-- Test `Number.isFinite(v) && lo <= v`. -/
def jsFiniteAtLeast (v : JsNum) (lo : ℚ) : Bool :=
  match v with
  | .num q => decide (lo ≤ q)
  | _ => false

/-- Embedding of `validateStep(s)`:
`isFinite(ch0) && 0 ≤ ch0 ≤ 100 && isFinite(ch1) && 0 ≤ ch1 ≤ 100 && isFinite(duration) && duration ≥ 1`. -/
def validateStep (s : RawStep) : Bool :=
  jsFiniteBetween s.ch0 0 100 && jsFiniteBetween s.ch1 0 100 && jsFiniteAtLeast s.duration 1

/-- Normalization step of `extractStepsFromJson`:
`ch0: Math.round(clamp(s.ch0 ?? 0, 0, 100))`,
`ch1: Math.round(clamp(s.ch1 ?? calibrationParams.ch1, 0, 100))`,
`duration: Math.round(Math.max(1, s.duration ?? 0))`. -/
def normalizeStep (defaultCh1 : ℚ) (s : RawStep) : RawStep :=
  { ch0 := jsnMap (fun q => jround (clamp q 0 100)) (jsCoalesce s.ch0 0)
    ch1 := jsnMap (fun q => jround (clamp q 0 100)) (jsCoalesce s.ch1 defaultCh1)
    duration := jsnMap (fun q => jround (max 1 q)) (jsCoalesce s.duration 0) }

/-- Normalize-and-validate core of `extractStepsFromJson`: the candidate
list is mapped through `normalizeStep` and then filtered by
`validateStep`. -/
def extractSteps (defaultCh1 : ℚ) (steps : List RawStep) : List RawStep :=
  (steps.map (normalizeStep defaultCh1)).filter validateStep

/-- A candidate step all of whose supplied fields are numeric (none coerces
to `NaN`). -/
def numericStep (s : RawStep) : Bool :=
  decide (s.ch0 ≠ JsNum.nan) && decide (s.ch1 ≠ JsNum.nan) && decide (s.duration ≠ JsNum.nan)

/-- Below the cap, the compiler loop is the accumulator-free walk. -/
lemma segLoop_no_cap (calibration : Option Calibration) (feed : ℚ) (maxSteps : ℕ) :
    ∀ (l : List Segment) (pos : ℚ) (steps : List EHDStep),
      steps.length + 2 * l.length ≤ maxSteps →
      segLoop calibration feed maxSteps l pos steps =
        (steps ++ stepsOf calibration feed l pos, finalPos l pos) := by
  intro l
  induction l with
  | nil => intro pos steps _; simp [segLoop, stepsOf, finalPos]
  | cons seg rest ih =>
    intro pos steps hcap
    rw [segLoop]
    have hlen : steps.length < maxSteps := by
      simp only [List.length_cons] at hcap; omega
    rw [if_pos hlen]
    by_cases hgap : pos < seg.startCm
    · simp only [if_pos hgap]
      rw [ih _ _ (by simp only [List.length_append, List.length_cons, List.length_nil] at hcap ⊢; omega)]
      simp [stepsOf, finalPos, if_pos hgap, List.append_assoc]
    · simp only [if_neg hgap]
      rw [ih _ _ (by simp only [List.length_append, List.length_cons, List.length_nil] at hcap ⊢; omega)]
      simp [stepsOf, finalPos, if_neg hgap, List.append_assoc]

/-- An exact region duration survives rounding and the 1000 ms floor, and
converts back to the region length in mm. -/
lemma implied_of_exact (feed len : ℚ) (hf : feed ≠ 0) (hx : ExactDur feed len) :
    max 1000 (jround (len * 10 / feed * 1000)) / 1000 * feed = len * 10 := by
  obtain ⟨h1, h2⟩ := hx
  rw [h1, max_eq_right h2]
  field_simp
  ring

/-- The implied lengths of the accumulator-free walk reproduce the region
lengths (in mm) whenever every region duration is exact. -/
lemma stepsOf_implied (calibration : Option Calibration) (feed : ℚ) (hf : feed ≠ 0) :
    ∀ (l : List Segment) (pos : ℚ), chainedFrom pos l →
      (∀ len ∈ regionLens l pos, ExactDur feed len) →
      (stepsOf calibration feed l pos).map (impliedLenMm feed) =
        (regionLens l pos).map (fun len => len * 10) := by
  intro l
  induction l with
  | nil => intro pos _ _; simp [stepsOf, regionLens]
  | cons seg rest ih =>
    intro pos hch hex
    obtain ⟨hle, hch2⟩ := hch
    rw [stepsOf, regionLens]
    by_cases hgap : pos < seg.startCm
    · simp only [if_pos hgap, List.map_append, List.map_cons]
      have hex1 : ExactDur feed (seg.startCm - pos) := by
        apply hex; simp [regionLens, if_pos hgap]
      have hex2 : ExactDur feed (seg.endCm - seg.startCm) := by
        apply hex; simp [regionLens, if_pos hgap]
      have hext : ∀ len ∈ regionLens rest seg.endCm, ExactDur feed len := by
        intro len hlen; apply hex; simp [regionLens, if_pos hgap, hlen]
      rw [ih seg.endCm hch2 hext]
      simp [impliedLenMm, implied_of_exact feed _ hf hex1, implied_of_exact feed _ hf hex2]
    · simp only [if_neg hgap, List.nil_append, List.map_cons]
      have hex2 : ExactDur feed (seg.endCm - seg.startCm) := by
        apply hex; simp [regionLens, if_neg hgap]
      have hext : ∀ len ∈ regionLens rest seg.endCm, ExactDur feed len := by
        intro len hlen; apply hex; simp [regionLens, if_neg hgap, hlen]
      rw [ih seg.endCm hch2 hext]
      simp [impliedLenMm, implied_of_exact feed _ hf hex2]

/-- The region lengths of a chained walk telescope to the distance from the
start cursor to the final cursor. -/
lemma regionLens_sum : ∀ (l : List Segment) (pos : ℚ), chainedFrom pos l →
    (regionLens l pos).sum = finalPos l pos - pos := by
  intro l
  induction l with
  | nil => intro pos _; simp [regionLens, finalPos]
  | cons seg rest ih =>
    intro pos hch
    obtain ⟨hle, hch2⟩ := hch
    rw [regionLens, finalPos]
    by_cases hgap : pos < seg.startCm
    · simp only [if_pos hgap, List.sum_append, List.sum_cons, List.sum_singleton, List.sum_nil]
      rw [ih seg.endCm hch2]
      ring
    · have heq : pos = seg.startCm := le_antisymm hle (le_of_not_lt hgap)
      simp only [if_neg hgap, List.nil_append, List.sum_cons]
      rw [ih seg.endCm hch2]
      rw [← heq]; ring

/-- C2 (amended): for a nonempty, sorted, chained segment set inside
`[0, tubeLength]`, when every region's implied duration is exact (an
integer number of milliseconds of at least 1000, so neither `Math.round`
nor the 1000 ms floor distorts it) and the step cap is not hit, the step
list tiles `[0, tubeLength]` exactly: the implied lengths
`duration/1000*feedSpeed` reproduce the gap and segment lengths in order,
and those lengths sum to the tube length. -/
theorem c2_amended_tiling (segments : List Segment) (feed : ℚ) (maxSteps : ℕ)
    (calibration : Option Calibration) (tubeLength : ℚ)
    (hne : segments ≠ [])
    (hsort : sortByStart segments = segments)
    (hch : chainedFrom 0 segments)
    (hend : finalPos segments 0 ≤ tubeLength)
    (hfeed : feed ≠ 0)
    (hmax : 2 * segments.length ≤ maxSteps)
    (hex : ∀ len ∈ regionLengths segments tubeLength, ExactDur feed len) :
    (segmentsToEHDSteps segments feed maxSteps calibration tubeLength).map (impliedLenMm feed) =
      (regionLengths segments tubeLength).map (fun len => len * 10) ∧
    (regionLengths segments tubeLength).sum = tubeLength := by
  have hex1 : ∀ len ∈ regionLens segments 0, ExactDur feed len := by
    intro len hlen
    exact hex len (by rw [regionLengths]; exact List.mem_append_left _ hlen)
  constructor
  · match segments, hne with
    | seg :: rest, _ =>
      rw [segmentsToEHDSteps]
      rw [hsort, segLoop_no_cap calibration feed maxSteps _ 0 []
        (by simpa using hmax), List.nil_append]
      rw [regionLengths]
      by_cases htail : finalPos (seg :: rest) 0 < tubeLength
      · simp only [if_pos htail, List.map_append]
        rw [stepsOf_implied calibration feed hfeed _ 0 hch hex1]
        have hexT : ExactDur feed (tubeLength - finalPos (seg :: rest) 0) := by
          apply hex
          rw [regionLengths]
          exact List.mem_append_right _ (by simp [if_pos htail])
        simp [impliedLenMm, implied_of_exact feed _ hfeed hexT]
      · simp only [if_neg htail, List.append_nil]
        exact stepsOf_implied calibration feed hfeed _ 0 hch hex1
  · rw [regionLengths, List.sum_append]
    rw [regionLens_sum segments 0 hch]
    by_cases htail : finalPos segments 0 < tubeLength
    · simp [if_pos htail]
    · have : finalPos segments 0 = tubeLength := le_antisymm hend (le_of_not_lt htail)
      simp [if_neg htail, this]

/-- Witness for C2 (amended) at a concrete input: one segment `[1,2]` at
density 5 in a 30 cm tube at 10 mm/s, giving regions `[1, 1, 28]` cm. -/
theorem c2_amended_tiling_witness :
    (segmentsToEHDSteps [⟨1, 2, 5⟩] 10 50 none 30).map (impliedLenMm 10) =
      (regionLengths [⟨1, 2, 5⟩] 30).map (fun len => len * 10) ∧
    (regionLengths [⟨1, 2, 5⟩] 30).sum = 30 :=
  c2_amended_tiling [⟨1, 2, 5⟩] 10 50 none 30 (by simp) rfl
    (by rw [chainedFrom]; norm_num [chainedFrom])
    (by norm_num [finalPos])
    (by norm_num)
    (by simp)
    (by intro len hlen
        rw [regionLengths] at hlen
        norm_num [regionLens, finalPos] at hlen
        rcases hlen with h | h <;> rw [h] <;> norm_num [ExactDur, jround])

/-- C2 counterexample: the half-centimetre segment `[0, 0.5]` at 10 mm/s
in a 30 cm tube is a valid non-overlapping segment set inside the tube,
but its 500 ms segment duration is clamped up to 1000 ms, so the implied
lengths sum to 305 mm, not `30 * 10 = 300` mm: the step list does not tile
`[0, tubeLength]`. -/
theorem c2_counterexample :
    ((segmentsToEHDSteps [⟨0, 1/2, 5⟩] 10 50 none 30).map (impliedLenMm 10)).sum ≠ 30 * 10 := by
  norm_num [segmentsToEHDSteps, sortByStart, insertByStart, segLoop, densityLevelToEHDParams,
    clamp, lerp, jround, DENSE_PARAMS, SPARSE_PARAMS, impliedLenMm]

/-- C3: compiling an empty (or absent, i.e. `null`, which the source guard
`!segments || segments.length === 0` treats identically) segment list
returns exactly the single step `{ch0: 0, ch1: 70, duration: 1500}`, for
every feed speed, step cap, calibration and tube length; it is never empty. -/
theorem c3_empty_segments_single_step (feedSpeed : ℚ) (maxSteps : ℕ)
    (calibration : Option Calibration) (tubeLengthCm : ℚ) :
    segmentsToEHDSteps [] feedSpeed maxSteps calibration tubeLengthCm =
      [{ ch0 := 0, ch1 := 70, duration := 1500 }] := rfl

/-- Overlap of segments is symmetric. -/
lemma segmentsOverlap_comm (a b : Segment) : segmentsOverlap a b = segmentsOverlap b a := by
  simp [segmentsOverlap, Bool.and_comm]

/-- Boolean overlap test elimination. -/
lemma segmentsOverlap_eq_false (a b : Segment) :
    segmentsOverlap a b = false ↔ ¬(a.startCm < b.endCm ∧ b.startCm < a.endCm) := by
  by_cases h1 : a.startCm < b.endCm <;> by_cases h2 : b.startCm < a.endCm <;>
    simp [segmentsOverlap, h1, h2]

/-- Membership through `insertByStart`. -/
lemma mem_insertByStart (a x : Segment) : ∀ l : List Segment,
    x ∈ insertByStart a l ↔ x = a ∨ x ∈ l := by
  intro l
  induction l with
  | nil => simp [insertByStart]
  | cons b l ih =>
    rw [insertByStart]
    by_cases h : b.startCm < a.startCm
    · simp only [if_pos h, List.mem_cons, ih]
      tauto
    · simp only [if_neg h, List.mem_cons]

/-- The stable insertion is a permutation of consing. -/
lemma insertByStart_perm (a : Segment) : ∀ l : List Segment,
    List.Perm (insertByStart a l) (a :: l) := by
  intro l
  induction l with
  | nil => simp [insertByStart]
  | cons b l ih =>
    rw [insertByStart]
    by_cases h : b.startCm < a.startCm
    · simp only [if_pos h]
      exact (ih.cons b).trans (List.Perm.swap a b l)
    · simp only [if_neg h]
      exact List.Perm.refl _

/-- The stable sort is a permutation of its input. -/
lemma sortByStart_perm : ∀ l : List Segment, List.Perm (sortByStart l) l := by
  intro l
  induction l with
  | nil => simp [sortByStart]
  | cons a l ih =>
    have : sortByStart (a :: l) = insertByStart a (sortByStart l) := rfl
    rw [this]
    exact (insertByStart_perm a (sortByStart l)).trans (ih.cons a)

/-- Inserting into a list sorted by `startCm` keeps it sorted. -/
lemma insertByStart_pairwise (a : Segment) : ∀ l : List Segment,
    l.Pairwise (fun s t => s.startCm ≤ t.startCm) →
    (insertByStart a l).Pairwise (fun s t => s.startCm ≤ t.startCm) := by
  intro l
  induction l with
  | nil => intro _; simp [insertByStart]
  | cons b l ih =>
    intro h
    rw [List.pairwise_cons] at h
    obtain ⟨hb, hl⟩ := h
    rw [insertByStart]
    by_cases hba : b.startCm < a.startCm
    · simp only [if_pos hba]
      rw [List.pairwise_cons]
      refine ⟨?_, ih hl⟩
      intro x hx
      rcases (mem_insertByStart a x l).mp hx with h2 | h2
      · rw [h2]; exact le_of_lt hba
      · exact hb x h2
    · simp only [if_neg hba]
      rw [List.pairwise_cons]
      refine ⟨?_, List.pairwise_cons.mpr ⟨hb, hl⟩⟩
      intro x hx
      rcases List.mem_cons.mp hx with h2 | h2
      · rw [h2]; exact le_of_not_lt hba
      · exact le_trans (le_of_not_lt hba) (hb x h2)

/-- The stable sort output is sorted by `startCm`. -/
lemma sortByStart_pairwise : ∀ l : List Segment,
    (sortByStart l).Pairwise (fun s t => s.startCm ≤ t.startCm) := by
  intro l
  induction l with
  | nil => simp [sortByStart]
  | cons a l ih => exact insertByStart_pairwise a (sortByStart l) ih

/-- In a list of well-formed segments that is sorted by `startCm` and
pairwise non-overlapping, earlier segments end before later ones start. -/
lemma chained_of_sorted (l : List Segment)
    (hs : l.Pairwise (fun s t => s.startCm ≤ t.startCm))
    (hn : l.Pairwise (fun a b => segmentsOverlap a b = false))
    (hw : ∀ seg ∈ l, seg.startCm < seg.endCm) :
    l.Pairwise (fun a b => a.endCm ≤ b.startCm) := by
  have hcomb := hs.and hn
  refine hcomb.imp_of_mem ?_
  intro a b _ hbmem hab
  obtain ⟨hle, hov⟩ := hab
  rw [segmentsOverlap_eq_false] at hov
  rcases not_and_or.mp hov with h | h
  · exfalso
    have hbw := hw b hbmem
    have : b.endCm ≤ a.startCm := le_of_not_lt h
    linarith
  · exact le_of_not_lt h

/-- Soundness of the gap scan: a returned slot has the preferred length,
starts at the cursor or at some scanned segment's end, and overlaps no
scanned segment. -/
lemma findGapScan_sound (pL tubeL : ℚ) : ∀ (l : List Segment) (c s e : ℚ),
    l.Pairwise (fun a b => a.endCm ≤ b.startCm) →
    (∀ seg ∈ l, seg.startCm < seg.endCm) →
    findGapScan pL tubeL l c = some (s, e) →
    e = s + pL ∧ (s = c ∨ ∃ seg ∈ l, s = seg.endCm) ∧
      ∀ seg ∈ l, ¬(seg.startCm < e ∧ s < seg.endCm) := by
  intro l
  induction l with
  | nil =>
    intro c s e _ _ h
    rw [findGapScan] at h
    by_cases hfit : c + pL ≤ tubeL
    · simp only [if_pos hfit, Option.some_inj, Prod.mk.injEq] at h
      obtain ⟨h1, h2⟩ := h
      exact ⟨by rw [← h1, ← h2], Or.inl h1.symm, by simp⟩
    · simp [if_neg hfit] at h
  | cons seg rest ih =>
    intro c s e hch hw h
    rw [List.pairwise_cons] at hch
    obtain ⟨hhead, hrest⟩ := hch
    have hwseg := hw seg (List.mem_cons_self seg rest)
    have hwrest : ∀ t ∈ rest, t.startCm < t.endCm := fun t ht => hw t (List.mem_cons_of_mem seg ht)
    rw [findGapScan] at h
    by_cases hgap : c + pL ≤ seg.startCm
    · simp only [if_pos hgap, Option.some_inj, Prod.mk.injEq] at h
      obtain ⟨h1, h2⟩ := h
      subst h1; subst h2
      refine ⟨rfl, Or.inl rfl, ?_⟩
      intro t ht
      rcases List.mem_cons.mp ht with h2 | h2
      · subst h2
        intro hcon
        exact absurd hcon.1 (not_lt.mpr hgap)
      · intro hcon
        have : seg.endCm ≤ t.startCm := hhead t h2
        have : c + pL ≤ t.startCm := by linarith
        exact absurd hcon.1 (not_lt.mpr this)
    · simp only [if_neg hgap] at h
      obtain ⟨he, hdisj, hok⟩ := ih seg.endCm s e hrest hwrest h
      have hsge : seg.endCm ≤ s := by
        rcases hdisj with h2 | ⟨t, ht, h2⟩
        · exact le_of_eq h2.symm
        · have h3 := hhead t ht
          have h4 := hwrest t ht
          linarith [h2 ▸ (le_of_lt (lt_of_le_of_lt h3 h4))]
      refine ⟨he, Or.inr ?_, ?_⟩
      · rcases hdisj with h2 | ⟨t, ht, h2⟩
        · exact ⟨seg, List.mem_cons_self seg rest, h2⟩
        · exact ⟨t, List.mem_cons_of_mem seg ht, h2⟩
      · intro t ht
        rcases List.mem_cons.mp ht with h2 | h2
        · subst h2
          intro hcon
          exact absurd hcon.2 (not_lt.mpr hsge)
        · exact hok t h2

/-- A slot returned by `findNextAvailablePosition` on a well-formed,
non-overlapping segment set overlaps none of the existing segments. -/
lemma findNextAvailablePosition_sound (segments : List Segment)
    (preferredStart preferredLength tubeLength : ℚ) (s e d : ℚ)
    (hwf : WellFormed segments) (hinv : NoOverlap segments)
    (h : findNextAvailablePosition segments preferredStart preferredLength tubeLength =
          some (s, e)) :
    ∀ seg ∈ segments, segmentsOverlap seg ⟨s, e, d⟩ = false := by
  rw [findNextAvailablePosition] at h
  have hperm := sortByStart_perm segments
  have hsymm : ∀ {x y : Segment},
      segmentsOverlap x y = false → segmentsOverlap y x = false := by
    intro x y hxy
    rw [segmentsOverlap_comm] at hxy
    exact hxy
  have hinv2 : (sortByStart segments).Pairwise (fun a b => segmentsOverlap a b = false) :=
    (List.Perm.pairwise_iff hsymm hperm).mpr hinv
  have hwf2 : ∀ seg ∈ sortByStart segments, seg.startCm < seg.endCm :=
    fun seg hseg => hwf seg (hperm.mem_iff.mp hseg)
  by_cases hc : preferredStart + preferredLength ≤ tubeLength ∧
      ¬(sortByStart segments).any
          (fun seg => segmentsOverlap seg ⟨preferredStart, preferredStart + preferredLength, 0⟩) =
        true
  · simp only [if_pos hc, Option.some_inj, Prod.mk.injEq] at h
    obtain ⟨h1, h2⟩ := h
    subst h1; subst h2
    intro seg hseg
    have hall := hc.2
    rw [List.any_eq_true] at hall
    push_neg at hall
    have h3 := hall seg (hperm.mem_iff.mpr hseg)
    exact Bool.not_eq_true _ ▸ (Bool.eq_false_iff.mpr h3)
  · simp only [if_neg hc] at h
    have hch := chained_of_sorted (sortByStart segments) (sortByStart_pairwise segments)
      hinv2 hwf2
    obtain ⟨_, _, hok⟩ := findGapScan_sound preferredLength tubeLength
      (sortByStart segments) 0 s e hch hwf2 h
    intro seg hseg
    rw [segmentsOverlap_eq_false]
    intro hcon
    exact hok seg (hperm.mem_iff.mpr hseg) ⟨hcon.1, hcon.2⟩

/-- Mapping with an index preserves length. -/
lemma jsMapIdx_length (f : ℕ → Segment → Segment) :
    ∀ (l : List Segment) (i : ℕ), (jsMapIdx f i l).length = l.length := by
  intro l
  induction l with
  | nil => intro i; rfl
  | cons a l ih => intro i; simp [jsMapIdx, ih]

/-- Elementwise action of the index-aware map. -/
lemma jsMapIdx_getElem (f : ℕ → Segment → Segment) :
    ∀ (l : List Segment) (i j : ℕ) (h : j < l.length) (h2 : j < (jsMapIdx f i l).length),
      (jsMapIdx f i l)[j] = f (i + j) l[j] := by
  intro l
  induction l with
  | nil => intro i j h h2; exact absurd h (Nat.not_lt_zero j)
  | cons a l ih =>
    intro i j h h2
    match j with
    | 0 => simp [jsMapIdx]
    | j + 1 =>
      have h3 : j < l.length := Nat.lt_of_succ_lt_succ h
      have h4 : j < (jsMapIdx f (i + 1) l).length := by rw [jsMapIdx_length]; exact h3
      have : (jsMapIdx f i (a :: l))[j + 1] = (jsMapIdx f (i + 1) l)[j] := by
        simp [jsMapIdx]
      rw [this, ih (i + 1) j h3 h4]
      congr 1
      omega

/-- The index-aware `some` is false exactly when the predicate is false at
every index. -/
lemma jsSomeIdx_eq_false (p : ℕ → Segment → Bool) :
    ∀ (l : List Segment) (i : ℕ),
      jsSomeIdx p i l = false ↔ ∀ (j : ℕ) (h : j < l.length), p (i + j) l[j] = false := by
  intro l
  induction l with
  | nil =>
    intro i
    constructor
    · intro _ j h; exact absurd h (Nat.not_lt_zero j)
    · intro _; rfl
  | cons a l ih =>
    intro i
    rw [jsSomeIdx, Bool.or_eq_false_iff, ih (i + 1)]
    constructor
    · rintro ⟨h1, h2⟩ j hj
      match j with
      | 0 => simpa using h1
      | j + 1 =>
        have h3 : j < l.length := Nat.lt_of_succ_lt_succ hj
        have := h2 j h3
        simpa [Nat.add_assoc, Nat.add_comm 1 j] using this
    · intro h
      refine ⟨by simpa using h 0 (Nat.succ_pos _), ?_⟩
      intro j hj
      have := h (j + 1) (Nat.succ_lt_succ hj)
      simpa [Nat.add_assoc, Nat.add_comm 1 j] using this

/-- C1: every segment-editor mutation — adding a segment through
`findNextAvailablePosition`, dragging a whole segment, or dragging a
start/end resize handle — preserves the pairwise non-overlap invariant of a
well-formed segment set: a candidate that would overlap another segment is
rejected and the prior segment retained unchanged. -/
theorem c1_mutations_preserve_no_overlap
    (segments : List Segment) (preferredStart preferredLength tubeLength : ℚ)
    (draggingIdx : ℕ) (handle : DragHandle) (newPosition minGap : ℚ)
    (hwf : WellFormed segments) (hinv : NoOverlap segments) :
    NoOverlap (addSegment segments preferredStart preferredLength tubeLength) ∧
    NoOverlap (onManualPointerMove segments draggingIdx handle newPosition minGap tubeLength) := by
  constructor
  · rw [addSegment]
    cases hfind : findNextAvailablePosition segments preferredStart preferredLength tubeLength with
    | none => exact hinv
    | some pos =>
      obtain ⟨s, e⟩ := pos
      have hsound := findNextAvailablePosition_sound segments preferredStart preferredLength
        tubeLength s e 5 hwf hinv hfind
      rw [NoOverlap, List.pairwise_append]
      exact ⟨hinv, List.pairwise_singleton _ _, by
        intro a ha b hb
        rw [List.mem_singleton] at hb
        subst hb
        exact hsound a ha⟩
  · rw [NoOverlap, List.pairwise_iff_getElem]
    intro i j hi hj hij
    simp only [onManualPointerMove] at hi hj ⊢
    have hi2 : i < segments.length := by rwa [jsMapIdx_length] at hi
    have hj2 : j < segments.length := by rwa [jsMapIdx_length] at hj
    rw [jsMapIdx_getElem _ segments 0 i hi2 hi, jsMapIdx_getElem _ segments 0 j hj2 hj]
    simp only [Nat.zero_add]
    have horig : segmentsOverlap segments[i] segments[j] = false := by
      rw [NoOverlap, List.pairwise_iff_getElem] at hinv
      exact hinv i j hi2 hj2 hij
    by_cases hci : i = draggingIdx <;> by_cases hcj : j = draggingIdx
    · exact absurd (hcj ▸ hci) (Nat.ne_of_lt hij)
    · -- i is the dragged index, j is another segment
      simp only [if_pos hci, if_neg hcj]
      by_cases hover : jsSomeIdx (fun otherIdx otherSeg =>
          decide (otherIdx ≠ i) && segmentsOverlap
            (dragCandidate segments[i] handle newPosition minGap tubeLength) otherSeg) 0
          segments = true
      · simp only [hover, if_true]
        exact horig
      · have hfalse := Bool.eq_false_iff.mpr hover
        simp only [hfalse, if_false]
        have hall := (jsSomeIdx_eq_false _ segments 0).mp hfalse
        have h3 := hall j hj2
        simp only [Nat.zero_add] at h3
        rcases Bool.and_eq_false_iff.mp h3 with h4 | h4
        · exfalso
          rw [decide_eq_false_iff_not] at h4
          exact absurd (not_not.mp h4) (Nat.ne_of_gt hij)
        · exact h4
    · -- j is the dragged index, i is another segment
      simp only [if_pos hcj, if_neg hci]
      by_cases hover : jsSomeIdx (fun otherIdx otherSeg =>
          decide (otherIdx ≠ j) && segmentsOverlap
            (dragCandidate segments[j] handle newPosition minGap tubeLength) otherSeg) 0
          segments = true
      · simp only [hover, if_true]
        exact horig
      · have hfalse := Bool.eq_false_iff.mpr hover
        simp only [hfalse, if_false]
        have hall := (jsSomeIdx_eq_false _ segments 0).mp hfalse
        have h3 := hall i hi2
        simp only [Nat.zero_add] at h3
        rcases Bool.and_eq_false_iff.mp h3 with h4 | h4
        · exfalso
          rw [decide_eq_false_iff_not] at h4
          exact absurd (not_not.mp h4) (Nat.ne_of_lt hij)
        · rw [segmentsOverlap_comm]
          exact h4
    · simp only [if_neg hci, if_neg hcj]
      exact horig

/-- Witness for C1 at a concrete input: two well-formed non-overlapping
segments, adding at preferred start 1 and dragging segment 0 as a whole. -/
theorem c1_witness :
    NoOverlap (addSegment [⟨0, 2, 5⟩, ⟨4, 6, 5⟩] 1 1 30) ∧
    NoOverlap (onManualPointerMove [⟨0, 2, 5⟩, ⟨4, 6, 5⟩] 0 DragHandle.whole 2 (1/10) 30) :=
  c1_mutations_preserve_no_overlap [⟨0, 2, 5⟩, ⟨4, 6, 5⟩] 1 1 30 0 DragHandle.whole 2 (1/10)
    (by intro seg hseg; rcases List.mem_cons.mp hseg with h | h
        · rw [h]; norm_num
        · rw [List.mem_singleton] at h; rw [h]; norm_num)
    (by rw [NoOverlap]
        refine List.pairwise_cons.mpr ⟨?_, List.pairwise_singleton _ _⟩
        intro b hb
        rw [List.mem_singleton] at hb
        subst hb
        rw [segmentsOverlap_eq_false]
        norm_num)

/-- Every step the compiler loop appends carries `duration = max 1000 …`,
so membership in the loop output implies membership in the incoming
accumulator or a duration of at least 1000 ms. -/
lemma segLoop_duration_ge (calibration : Option Calibration) (feedSpeed : ℚ) (maxSteps : ℕ) :
    ∀ (l : List Segment) (pos : ℚ) (steps : List EHDStep) (st : EHDStep),
      st ∈ (segLoop calibration feedSpeed maxSteps l pos steps).1 →
      st ∈ steps ∨ 1000 ≤ st.duration := by
  intro l
  induction l with
  | nil => intro pos steps st h; exact Or.inl h
  | cons seg rest ih =>
    intro pos steps st h
    rw [segLoop] at h
    by_cases hlen : steps.length < maxSteps
    · simp only [if_pos hlen] at h
      rcases ih _ _ _ h with h2 | h2
      · by_cases hgap : pos < seg.startCm
        · simp only [if_pos hgap, List.append_assoc, List.mem_append, List.mem_singleton] at h2
          rcases h2 with h3 | h3 | h3
          · exact Or.inl h3
          · exact Or.inr (by rw [h3]; exact le_max_left _ _)
          · exact Or.inr (by rw [h3]; exact le_max_left _ _)
        · simp only [if_neg hgap, List.mem_append, List.mem_singleton] at h2
          rcases h2 with h3 | h3
          · exact Or.inl h3
          · exact Or.inr (by rw [h3]; exact le_max_left _ _)
      · exact Or.inr h2
    · simp only [if_neg hlen] at h
      exact Or.inl h

/-- C10: every step produced by `segmentsToEHDSteps` — gap steps, segment
steps and the degenerate zero-segment step — has duration at least 1000 ms
(strictly stronger than the wire contract `duration_ms ≥ 1`). -/
theorem c10_all_durations_ge_1000 (segments : List Segment) (feedSpeed : ℚ) (maxSteps : ℕ)
    (calibration : Option Calibration) (tubeLengthCm : ℚ) (st : EHDStep)
    (hmem : st ∈ segmentsToEHDSteps segments feedSpeed maxSteps calibration tubeLengthCm) :
    1000 ≤ st.duration := by
  match segments with
  | [] =>
    rw [segmentsToEHDSteps, List.mem_singleton] at hmem
    rw [hmem]; norm_num
  | s :: l =>
    rw [segmentsToEHDSteps] at hmem
    set r := segLoop calibration feedSpeed maxSteps (sortByStart (s :: l)) 0 [] with hr
    by_cases htail : r.2 < tubeLengthCm
    · simp only [if_pos htail, List.mem_append, List.mem_singleton] at hmem
      rcases hmem with h | h
      · rcases segLoop_duration_ge calibration feedSpeed maxSteps _ _ _ _ (hr ▸ h) with h2 | h2
        · simp at h2
        · exact h2
      · rw [h]; exact le_max_left _ _
    · simp only [if_neg htail] at hmem
      rcases segLoop_duration_ge calibration feedSpeed maxSteps _ _ _ _ (hr ▸ hmem) with h2 | h2
      · simp at h2
      · exact h2

/-- Witness for C10 at a concrete input: the degenerate single step of the
empty segment list has duration 1500 ≥ 1000. -/
theorem c10_witness :
    (1000 : ℚ) ≤ (⟨0, 70, 1500⟩ : EHDStep).duration :=
  c10_all_durations_ge_1000 [] 10 50 none 30 ⟨0, 70, 1500⟩ (by simp [segmentsToEHDSteps])

/-- Floor shift used by the emit-loop count: advancing the cursor by one
step decrements the floor of the remaining step count. -/
lemma emit_floor_shift (segLen stepPx t : ℚ) (hs : stepPx ≠ 0) :
    ⌊(segLen - (t + stepPx)) / stepPx⌋ = ⌊(segLen - t) / stepPx⌋ - 1 := by
  have hnum : (segLen - (t + stepPx)) / stepPx = (segLen - t) / stepPx - 1 := by
    field_simp
    ring
  rw [hnum, show ((1 : ℚ)) = ((1 : ℤ) : ℚ) by norm_num, Int.floor_sub_int]

/-- Closed form of the emit loop: starting at travelled distance `t`, it
emits one point per remaining whole step, at `t, t+stepPx, t+2*stepPx, …`
while within the segment length. -/
lemma emitLoop_eq_map (a b segLen stepPx : ℚ) (hs : 0 < stepPx) :
    ∀ (n : ℕ) (t : ℚ), (⌊(segLen - t) / stepPx⌋ + 1).toNat = n →
      emitLoop a b segLen stepPx t =
        (List.range n).map (fun j : ℕ => lerp a b ((t + (j : ℚ) * stepPx) / segLen)) := by
  intro n
  induction n with
  | zero =>
    intro t hn
    rw [emitLoop, dif_neg]
    · simp
    · rintro ⟨_, ht⟩
      have hnn : (0 : ℤ) ≤ ⌊(segLen - t) / stepPx⌋ :=
        Int.floor_nonneg.mpr (div_nonneg (by linarith) hs.le)
      omega
  | succ n ih =>
    intro t hn
    have ht : t ≤ segLen := by
      by_contra hc
      push_neg at hc
      have hneg : (segLen - t) / stepPx < 0 := div_neg_of_neg_of_pos (by linarith) hs
      have : ⌊(segLen - t) / stepPx⌋ < 0 := by
        by_contra hge
        push_neg at hge
        exact absurd hneg (not_lt.mpr (Int.floor_nonneg.mp hge))
      omega
    rw [emitLoop, dif_pos ⟨hs, ht⟩]
    have hcount : (⌊(segLen - (t + stepPx)) / stepPx⌋ + 1).toNat = n := by
      rw [emit_floor_shift segLen stepPx t (ne_of_gt hs)]
      have hnn : (0 : ℤ) ≤ ⌊(segLen - t) / stepPx⌋ :=
        Int.floor_nonneg.mpr (div_nonneg (by linarith) hs.le)
      omega
    rw [ih (t + stepPx) hcount]
    rw [List.range_succ_eq_map, List.map_cons, List.map_map]
    refine congrArg₂ List.cons ?_ ?_
    · norm_num
    · refine List.map_congr_left ?_
      intro j _
      simp only [Function.comp]
      congr 1
      push_cast
      ring

/-- On a two-point polyline the resampler is the first point followed by
one emit loop starting at travelled distance `stepPx`. -/
lemma resampleUniform_pair (x0 x1 stepPx : ℚ) :
    resampleUniform [x0, x1] stepPx =
      x0 :: emitLoop x0 x1 (dist1 x0 x1) stepPx stepPx := by
  show x0 :: resampleGo stepPx x0 [x1] 0 = _
  rw [resampleGo, resampleGo]
  rw [sub_zero, List.append_nil]

/-- C5 (amended): on a straight two-point polyline of positive length
`L = x1 - x0` with step `stepPx > 0`, `resampleUniform` returns the first
endpoint followed by exactly `⌊L/stepPx⌋` points at arc-length positions
`stepPx, 2*stepPx, …`, so consecutive points are spaced exactly `stepPx`;
the second endpoint appears only as the last of these when `stepPx`
divides `L` exactly, and is otherwise omitted. -/
theorem c5_amended_resample (x0 x1 stepPx : ℚ) (hx : x0 < x1) (hs : 0 < stepPx) :
    resampleUniform [x0, x1] stepPx =
      x0 :: (List.range (⌊(x1 - x0) / stepPx⌋).toNat).map
        (fun j : ℕ => x0 + ((j : ℚ) + 1) * stepPx) := by
  have hL : dist1 x0 x1 = x1 - x0 := by
    rw [dist1, abs_of_neg (by linarith)]
    ring
  have hLpos : (0 : ℚ) < x1 - x0 := by linarith
  rw [resampleUniform_pair, hL]
  have hcount : (⌊((x1 - x0) - stepPx) / stepPx⌋ + 1).toNat = (⌊(x1 - x0) / stepPx⌋).toNat := by
    have h1 : ⌊((x1 - x0) - (0 + stepPx)) / stepPx⌋ = ⌊((x1 - x0) - 0) / stepPx⌋ - 1 :=
      emit_floor_shift (x1 - x0) stepPx 0 (ne_of_gt hs)
    rw [zero_add, sub_zero] at h1
    rw [h1]
    omega
  rw [emitLoop_eq_map x0 x1 (x1 - x0) stepPx hs _ stepPx hcount]
  refine congrArg₂ List.cons rfl (List.map_congr_left ?_)
  intro j _
  have hne : x1 - x0 ≠ 0 := ne_of_gt hLpos
  rw [lerp]
  field_simp
  ring

/-- Witness for C5 (amended) at a concrete input: the straight polyline
from 0 to 5 resampled at step 2 gives the first endpoint and points at
arc lengths 2 and 4 (and not the far endpoint 5). -/
theorem c5_amended_resample_witness :
    resampleUniform [(0 : ℚ), 5] 2 = [0, 2, 4] := by
  rw [c5_amended_resample 0 5 2 (by norm_num) (by norm_num)]
  norm_num
  rw [show Int.toNat 2 = 2 from rfl]
  norm_num [List.range_succ]

/-- C5 counterexample: on the straight polyline from 0 to 5 with step 2
the claim demands `⌊5/2⌋ = 2` interior points plus both endpoints, but the
far endpoint 5 is not in the output (which is `[0, 2, 4]`): the final
point is emitted only when the step divides the length exactly. -/
theorem c5_counterexample :
    (5 : ℚ) ∉ resampleUniform [(0 : ℚ), 5] 2 := by
  rw [resampleUniform_pair]
  have hd : dist1 (0 : ℚ) 5 = 5 := by norm_num [dist1]
  rw [hd]
  rw [emitLoop_eq_map 0 5 5 2 (by norm_num) 2 2 (by rw [show ((⌊(5 - 2 : ℚ) / 2⌋ : ℤ)) = 1 by norm_num]; rfl)]
  norm_num [List.range_succ, lerp]

/-- The dither loop emits a droplet exactly at the indices whose quantized
output is 1 and which are multiples of `stepIdx` (for positive `stepIdx`):
its droplet list is the filtered zip of indices with the synthesized
signal. -/
lemma ditherGo_drops_eq (threshold : ℚ) (stepIdx : ℕ)
    (sampleStepPx mmPerPixel feedSpeed w0mm : ℚ) :
    ∀ (idxs : List ℕ) (fCopy : List ℚ),
      (ditherGo threshold stepIdx sampleStepPx mmPerPixel feedSpeed w0mm idxs fCopy).2 =
        ((idxs.zip
            (ditherGo threshold stepIdx sampleStepPx mmPerPixel feedSpeed w0mm idxs fCopy).1).filter
          (fun p => decide (p.2 = 1) && decide (stepIdx ∣ p.1))).map
          (fun p => ditherDrop sampleStepPx mmPerPixel feedSpeed w0mm p.1) := by
  intro idxs
  induction idxs with
  | nil => intro fCopy; rfl
  | cons i idxs ih =>
    intro fCopy
    simp only [ditherGo]
    by_cases hth : threshold ≤ clamp (fCopy.getD i 0) 0 1
    · simp only [if_pos hth]
      by_cases hmod : i % stepIdx = 0
      · have hdvd : stepIdx ∣ i := Nat.dvd_of_mod_eq_zero hmod
        rw [if_pos ⟨hmod, by norm_num⟩]
        rw [List.zip_cons_cons, List.filter_cons_of_pos (by simp [hdvd]), List.map_cons]
        exact congrArg _ (ih _)
      · have hdvd : ¬stepIdx ∣ i := fun hd => hmod (Nat.mod_eq_zero_of_dvd hd)
        rw [if_neg (fun hc => hmod hc.1)]
        rw [List.zip_cons_cons, List.filter_cons_of_neg (by simp [hdvd])]
        exact ih _
    · simp only [if_neg hth]
      rw [if_neg (by norm_num)]
      rw [List.zip_cons_cons, List.filter_cons_of_neg (by norm_num)]
      exact ih _

/-- The synthesized signal and the diffused error state of the dither loop
do not depend on the emission cadence `stepIdx`: error accumulates at every
sample regardless of the droplet gating. -/
lemma ditherGo_fst_indep (threshold : ℚ) (stepIdx1 stepIdx2 : ℕ)
    (sampleStepPx mmPerPixel feedSpeed w0mm : ℚ) :
    ∀ (idxs : List ℕ) (fCopy : List ℚ),
      (ditherGo threshold stepIdx1 sampleStepPx mmPerPixel feedSpeed w0mm idxs fCopy).1 =
        (ditherGo threshold stepIdx2 sampleStepPx mmPerPixel feedSpeed w0mm idxs fCopy).1 := by
  intro idxs
  induction idxs with
  | nil => intro fCopy; rfl
  | cons i idxs ih =>
    intro fCopy
    simp only [ditherGo]
    rw [ih]

/-- C7: in DITHER mode the quantization error is computed and diffused to
the next four samples with weights `7/16, 5/16, 3/16, 1/16` at every
sample index — so the synthesized signal is the same for any emission
cadence — and a droplet is emitted at sample index `i` exactly when the
quantized output at `i` is 1 and `i` is a multiple of `stepIdx`. -/
theorem c7_dither_error_and_gating (f : List ℚ) (threshold : ℚ) (stepIdx stepIdx2 : ℕ)
    (sampleStepPx mmPerPixel feedSpeed widthMinMm widthMaxMm : ℚ) (hstep : 1 ≤ stepIdx) :
    (ditherCompute f threshold stepIdx sampleStepPx mmPerPixel feedSpeed widthMinMm widthMaxMm).2 =
      (((List.range f.length).zip
          (ditherCompute f threshold stepIdx sampleStepPx mmPerPixel feedSpeed widthMinMm
            widthMaxMm).1).filter
        (fun p => decide (p.2 = 1) && decide (stepIdx ∣ p.1))).map
        (fun p =>
          ditherDrop sampleStepPx mmPerPixel feedSpeed ((1/2) * (widthMinMm + widthMaxMm)) p.1) ∧
    (ditherCompute f threshold stepIdx sampleStepPx mmPerPixel feedSpeed widthMinMm
        widthMaxMm).1 =
      (ditherCompute f threshold stepIdx2 sampleStepPx mmPerPixel feedSpeed widthMinMm
        widthMaxMm).1 :=
  ⟨ditherGo_drops_eq threshold stepIdx sampleStepPx mmPerPixel feedSpeed _ (List.range f.length) f,
   ditherGo_fst_indep threshold stepIdx stepIdx2 sampleStepPx mmPerPixel feedSpeed _
     (List.range f.length) f⟩

/-- Witness for C7 at a concrete input: one sample `[1]` with threshold
1/2 at cadence 1 (compared against cadence 2). -/
theorem c7_witness :
    1 ≤ 1 ∧
    ((ditherCompute [1] (1/2) 1 1 1 1 1 1).2 =
      (((List.range ([1] : List ℚ).length).zip (ditherCompute [1] (1/2) 1 1 1 1 1 1).1).filter
        (fun p => decide (p.2 = 1) && decide (1 ∣ p.1))).map
        (fun p => ditherDrop 1 1 1 ((1/2) * (1 + 1)) p.1) ∧
     (ditherCompute [1] (1/2) 1 1 1 1 1 1).1 = (ditherCompute [1] (1/2) 2 1 1 1 1 1).1) :=
  ⟨le_refl 1, c7_dither_error_and_gating [1] (1/2) 1 2 1 1 1 1 1 (le_refl 1)⟩

/-- C8: in PWM mode (with a genuine width range `widthMinPx ≤ widthMaxPx`
and a nonnegative pixel pitch) every emitted droplet has amplitude exactly
1.0 and width `(widthMinPx + v * (widthMaxPx - widthMinPx)) * mmPerPixel`
for the clamped intensity `v` at its sample index (a multiple of
`stepIdx`), and that width is monotonically non-decreasing in the
intensity. -/
theorem c8_pwm_amplitude_width_monotone (f : List ℚ) (stepIdx : ℕ)
    (widthMinPx widthMaxPx mmPerPixel sampleStepPx feedSpeed : ℚ)
    (hw : widthMinPx ≤ widthMaxPx) (hm : 0 ≤ mmPerPixel) :
    (∀ d ∈ pwmDrops f stepIdx widthMinPx widthMaxPx mmPerPixel sampleStepPx feedSpeed,
        d.amplitude = 1 ∧
        ∃ i, i < f.length ∧ i % stepIdx = 0 ∧
          d.width_mm =
            (widthMinPx + clamp (f.getD i 0) 0 1 * (widthMaxPx - widthMinPx)) * mmPerPixel) ∧
    (∀ v1 v2 : ℚ, v1 ≤ v2 →
        (widthMinPx + clamp v1 0 1 * (widthMaxPx - widthMinPx)) * mmPerPixel ≤
          (widthMinPx + clamp v2 0 1 * (widthMaxPx - widthMinPx)) * mmPerPixel) := by
  have hrange : max 0 (widthMaxPx - widthMinPx) = widthMaxPx - widthMinPx :=
    max_eq_right (sub_nonneg.mpr hw)
  constructor
  · intro d hd
    simp only [pwmDrops, List.mem_map, List.mem_filter, List.mem_range,
      decide_eq_true_eq] at hd
    obtain ⟨i, ⟨hilt, himod⟩, hdef⟩ := hd
    subst hdef
    refine ⟨rfl, i, hilt, himod, ?_⟩
    simp only [hrange]
  · intro v1 v2 h12
    have hcl : clamp v1 0 1 ≤ clamp v2 0 1 :=
      max_le_max (le_refl 0) (min_le_min (le_refl 1) h12)
    have hmul : clamp v1 0 1 * (widthMaxPx - widthMinPx) ≤
        clamp v2 0 1 * (widthMaxPx - widthMinPx) :=
      mul_le_mul_of_nonneg_right hcl (sub_nonneg.mpr hw)
    exact mul_le_mul_of_nonneg_right (by linarith) hm

/-- Witness for C8 at a concrete input: the PWM droplet for the single
intensity 1/2 with width range `[1, 3]` px has amplitude 1 and width 2,
and the width formula is monotone between intensities 0 and 1. -/
theorem c8_witness :
    ((⟨0, 0, 0, 2, 1⟩ : Drop).amplitude = 1 ∧
      ∃ i, i < ([1/2] : List ℚ).length ∧ i % 1 = 0 ∧
        (⟨0, 0, 0, 2, 1⟩ : Drop).width_mm =
          (1 + clamp (([1/2] : List ℚ).getD i 0) 0 1 * (3 - 1)) * 1) ∧
    (1 + clamp 0 0 1 * (3 - 1)) * 1 ≤ (1 + clamp 1 0 1 * (3 - 1)) * 1 :=
  ⟨(c8_pwm_amplitude_width_monotone [1/2] 1 1 3 1 1 1 (by norm_num) (by norm_num)).1
      ⟨0, 0, 0, 2, 1⟩
      (by norm_num [pwmDrops, clamp, List.range_succ]),
   (c8_pwm_amplitude_width_monotone [1/2] 1 1 3 1 1 1 (by norm_num) (by norm_num)).2 0 1
      (by norm_num)⟩

/-- A rounded clamp into `[0, 100]` lands in `[0, 100]`. -/
lemma jround_clamp_bounds (q : ℚ) :
    0 ≤ jround (clamp q 0 100) ∧ jround (clamp q 0 100) ≤ 100 := by
  have h1 : (0 : ℚ) ≤ clamp q 0 100 := le_max_left _ _
  have h2 : clamp q 0 100 ≤ 100 := max_le (by norm_num) (min_le_left _ _)
  constructor
  · rw [jround]
    have : (0 : ℤ) ≤ ⌊clamp q 0 100 + 1/2⌋ := Int.floor_nonneg.mpr (by linarith)
    exact_mod_cast this
  · rw [jround]
    have : ⌊clamp q 0 100 + 1/2⌋ ≤ 100 := by
      have := Int.floor_le_floor (show clamp q 0 100 + 1/2 ≤ (201/2 : ℚ) by linarith)
      have h3 : ⌊(201/2 : ℚ)⌋ = 100 := by norm_num
      omega
    exact_mod_cast this

/-- A rounded `max 1 _` is at least 1. -/
lemma jround_max_one (q : ℚ) : 1 ≤ jround (max 1 q) := by
  rw [jround]
  have h1 : (1 : ℚ) ≤ max 1 q := le_max_left _ _
  have : (1 : ℤ) ≤ ⌊max 1 q + 1/2⌋ := Int.le_floor.mpr (by push_cast; linarith)
  exact_mod_cast this

/-- The normalized `ch0`/`ch1` field passes the `[0,100]` finiteness check
exactly when the candidate field is not `NaN`. -/
lemma validate_channel_field (d : ℚ) (v : JsNum) :
    jsFiniteBetween (jsnMap (fun q => jround (clamp q 0 100)) (jsCoalesce v d)) 0 100 =
      decide (v ≠ JsNum.nan) := by
  cases v with
  | missing =>
    simp only [jsCoalesce, jsnMap, jsFiniteBetween]
    have := jround_clamp_bounds d
    simp [this.1, this.2]
  | num q =>
    simp only [jsCoalesce, jsnMap, jsFiniteBetween]
    have := jround_clamp_bounds q
    simp [this.1, this.2]
  | nan => rfl

/-- The normalized `duration` field passes the `≥ 1` finiteness check
exactly when the candidate field is not `NaN`. -/
lemma validate_duration_field (v : JsNum) :
    jsFiniteAtLeast (jsnMap (fun q => jround (max 1 q)) (jsCoalesce v 0)) 1 =
      decide (v ≠ JsNum.nan) := by
  cases v with
  | missing =>
    simp only [jsCoalesce, jsnMap, jsFiniteAtLeast]
    norm_num [jround]
    intro hcon
    exact JsNum.noConfusion hcon
  | num q =>
    simp only [jsCoalesce, jsnMap, jsFiniteAtLeast]
    simp [jround_max_one q]
  | nan => rfl

/-- C6 (amended): a candidate step is first normalized — missing `ch0`
defaults to 0, missing `ch1` to the profile's shared value, missing
`duration` to 0; `ch0` and `ch1` are clamped into `[0,100]` and rounded;
`duration` is raised to at least 1 and rounded — and is then accepted if
and only if all three supplied fields are numeric (none coerces to `NaN`).
Because normalization forces the ranges, `validateStep`'s range conditions
never reject a numeric candidate, however far outside `[0,100]` or below 1
its original values were; only non-numeric steps are filtered out
individually, while the remaining steps are kept. -/
theorem c6_amended_normalize_then_filter (defaultCh1 : ℚ) (steps : List RawStep) :
    extractSteps defaultCh1 steps =
      (steps.filter numericStep).map (normalizeStep defaultCh1) ∧
    ∀ s : RawStep, validateStep (normalizeStep defaultCh1 s) = numericStep s := by
  have hpt : ∀ s : RawStep, validateStep (normalizeStep defaultCh1 s) = numericStep s := by
    intro s
    rw [validateStep, numericStep, normalizeStep]
    rw [validate_channel_field 0 s.ch0, validate_channel_field defaultCh1 s.ch1,
      validate_duration_field s.duration]
  refine ⟨?_, hpt⟩
  rw [extractSteps, List.filter_map]
  rw [List.filter_congr (fun s _ => by rw [Function.comp_apply, hpt s])]

/-- C6 counterexample: the candidate step `{ch0: 150, ch1: 70, duration: 5}`
has `ch0 ∉ [0, 100]`, so the claim demands it be rejected; the import
instead accepts it after clamping `ch0` to 100. -/
theorem c6_counterexample :
    extractSteps 70 [⟨JsNum.num 150, JsNum.num 70, JsNum.num 5⟩] =
      [⟨JsNum.num 100, JsNum.num 70, JsNum.num 5⟩] := by
  rw [extractSteps]
  norm_num [normalizeStep, jsCoalesce, jsnMap, clamp, jround, validateStep,
    jsFiniteBetween, jsFiniteAtLeast, List.filter]

/-- Clamping is idempotent (whatever the bounds' order). -/
lemma clamp_idem (v lo hi : ℚ) : clamp (clamp v lo hi) lo hi = clamp v lo hi := by
  rw [clamp, clamp]
  rcases le_total hi v with h1 | h1 <;> rcases le_total lo hi with h2 | h2 <;>
    rcases le_total lo v with h3 | h3 <;>
      simp [max_def, min_def] <;> split_ifs <;> linarith

/-- C9: `grayscaleAt` clamps the coordinates into
`[0, width-1] × [0, height-1]` and floors before indexing, so on a
well-formed raster the computed index stays strictly inside the data array
(never out of bounds), sampling at any point — including outside the
raster — equals sampling at the clamped (nearest edge) point, and the
returned value is `(0.299 r + 0.587 g + 0.114 b) / 255` for the bytes at
the computed pixel index. -/
theorem c9_grayscale_clamped_safe (img : ImageData) (x y : ℚ)
    (hw : 1 ≤ img.width) (hh : 1 ≤ img.height)
    (hdata : img.data.length = 4 * img.width * img.height) :
    (0 ≤ pixelIndex img x y ∧ (pixelIndex img x y).toNat + 2 < img.data.length) ∧
    grayscaleAt img x y =
      grayscaleAt img (clamp x 0 ((img.width : ℚ) - 1)) (clamp y 0 ((img.height : ℚ) - 1)) ∧
    grayscaleAt img x y =
      (299/1000 * img.data.getD (pixelIndex img x y).toNat 0 +
        587/1000 * img.data.getD ((pixelIndex img x y).toNat + 1) 0 +
        114/1000 * img.data.getD ((pixelIndex img x y).toNat + 2) 0) / 255 := by
  have hxlo : (0 : ℚ) ≤ clamp x 0 ((img.width : ℚ) - 1) := le_max_left _ _
  have hxhi : clamp x 0 ((img.width : ℚ) - 1) ≤ (img.width : ℚ) - 1 := by
    refine max_le ?_ (min_le_left _ _)
    have : (1 : ℚ) ≤ (img.width : ℚ) := by exact_mod_cast hw
    linarith
  have hylo : (0 : ℚ) ≤ clamp y 0 ((img.height : ℚ) - 1) := le_max_left _ _
  have hyhi : clamp y 0 ((img.height : ℚ) - 1) ≤ (img.height : ℚ) - 1 := by
    refine max_le ?_ (min_le_left _ _)
    have : (1 : ℚ) ≤ (img.height : ℚ) := by exact_mod_cast hh
    linarith
  have hxi0 : (0 : ℤ) ≤ ⌊clamp x 0 ((img.width : ℚ) - 1)⌋ := Int.floor_nonneg.mpr hxlo
  have hyi0 : (0 : ℤ) ≤ ⌊clamp y 0 ((img.height : ℚ) - 1)⌋ := Int.floor_nonneg.mpr hylo
  have hxiW : ⌊clamp x 0 ((img.width : ℚ) - 1)⌋ ≤ (img.width : ℤ) - 1 := by
    have := Int.floor_le_floor hxhi
    have h2 : ⌊(img.width : ℚ) - 1⌋ = (img.width : ℤ) - 1 := by
      rw [show ((img.width : ℚ) - 1) = (((img.width : ℤ) - 1 : ℤ) : ℚ) by push_cast; ring]
      exact Int.floor_intCast _
    omega
  have hyiH : ⌊clamp y 0 ((img.height : ℚ) - 1)⌋ ≤ (img.height : ℤ) - 1 := by
    have := Int.floor_le_floor hyhi
    have h2 : ⌊(img.height : ℚ) - 1⌋ = (img.height : ℤ) - 1 := by
      rw [show ((img.height : ℚ) - 1) = (((img.height : ℤ) - 1 : ℤ) : ℚ) by push_cast; ring]
      exact Int.floor_intCast _
    omega
  have hmul : ⌊clamp y 0 ((img.height : ℚ) - 1)⌋ * (img.width : ℤ) ≤
      ((img.height : ℤ) - 1) * (img.width : ℤ) :=
    mul_le_mul_of_nonneg_right hyiH (by positivity)
  have hidx0 : 0 ≤ pixelIndex img x y := by
    rw [pixelIndex]
    have : (0 : ℤ) ≤ ⌊clamp y 0 ((img.height : ℚ) - 1)⌋ * (img.width : ℤ) :=
      mul_nonneg hyi0 (by positivity)
    nlinarith
  have hidxU : pixelIndex img x y ≤ 4 * (img.width : ℤ) * (img.height : ℤ) - 4 := by
    rw [pixelIndex]
    nlinarith
  refine ⟨⟨hidx0, ?_⟩, ?_, rfl⟩
  · have hcast : ((img.data.length : ℤ)) = 4 * (img.width : ℤ) * (img.height : ℤ) := by
      rw [hdata]; push_cast; ring
    omega
  · have hpix : pixelIndex img (clamp x 0 ((img.width : ℚ) - 1))
        (clamp y 0 ((img.height : ℚ) - 1)) = pixelIndex img x y := by
      rw [pixelIndex, pixelIndex, clamp_idem, clamp_idem]
    rw [grayscaleAt, grayscaleAt, hpix]

/-- Witness for C9 at a concrete input: a 2×1 raster sampled far outside
its bounds at `(10, -3)`. -/
theorem c9_witness :
    (0 ≤ pixelIndex ⟨2, 1, [255, 0, 0, 0, 0, 255, 0, 0]⟩ 10 (-3) ∧
      (pixelIndex ⟨2, 1, [255, 0, 0, 0, 0, 255, 0, 0]⟩ 10 (-3)).toNat + 2 <
        ([255, 0, 0, 0, 0, 255, 0, 0] : List ℚ).length) ∧
    grayscaleAt ⟨2, 1, [255, 0, 0, 0, 0, 255, 0, 0]⟩ 10 (-3) =
      grayscaleAt ⟨2, 1, [255, 0, 0, 0, 0, 255, 0, 0]⟩ (clamp 10 0 ((2 : ℚ) - 1))
        (clamp (-3) 0 ((1 : ℚ) - 1)) ∧
    grayscaleAt ⟨2, 1, [255, 0, 0, 0, 0, 255, 0, 0]⟩ 10 (-3) =
      (299/1000 * ([255, 0, 0, 0, 0, 255, 0, 0] : List ℚ).getD
          (pixelIndex ⟨2, 1, [255, 0, 0, 0, 0, 255, 0, 0]⟩ 10 (-3)).toNat 0 +
        587/1000 * ([255, 0, 0, 0, 0, 255, 0, 0] : List ℚ).getD
          ((pixelIndex ⟨2, 1, [255, 0, 0, 0, 0, 255, 0, 0]⟩ 10 (-3)).toNat + 1) 0 +
        114/1000 * ([255, 0, 0, 0, 0, 255, 0, 0] : List ℚ).getD
          ((pixelIndex ⟨2, 1, [255, 0, 0, 0, 0, 255, 0, 0]⟩ 10 (-3)).toNat + 2) 0) / 255 :=
  c9_grayscale_clamped_safe ⟨2, 1, [255, 0, 0, 0, 0, 255, 0, 0]⟩ 10 (-3)
    (by norm_num) (by norm_num) (by norm_num)

/-- C4: compiling the single segment `{startCm: 0, endCm: 5, densityLevel: 10}`
with feed speed 10 mm/s, the default calibration (whose dense preset is
`{ch0: 80, ch1: 70, duration_base: 1500}`) and tube length 15 cm yields
exactly the segment step `{ch0: 80, ch1: 70, duration: 5000}` followed by
the trailing rest step `{ch0: 0, ch1: 70, duration: 10000}`. -/
theorem c4_single_segment_example :
    segmentsToEHDSteps [⟨0, 5, 10⟩] 10 50 none 15 =
      [{ ch0 := 80, ch1 := 70, duration := 5000 }, { ch0 := 0, ch1 := 70, duration := 10000 }] := by
  norm_num [segmentsToEHDSteps, sortByStart, insertByStart, segLoop, densityLevelToEHDParams,
    clamp, lerp, jround, DENSE_PARAMS, SPARSE_PARAMS]

end TubeWeave
